import Mathlib

set_option maxHeartbeats 1600000
set_option maxRecDepth 40000

/-!
Shallow embedding of the display codec in `src/imgToArray.py` of the
photo-frame assistant repository: the fill-resize / centre-crop geometry,
the palette quantisation step, the nibble packers of `img_to_array` and
`img_to_epaper_4bit`, and the RGB565 channel encoder of `img_to_rgb565`.
Python binary64 float arithmetic on the resize scale is modelled exactly:
doubles are dyadic rationals `m * 2^e` with a normalised 53-bit significand,
division and multiplication are correctly rounded (nearest, ties to even),
and Python `int()` truncates the non-negative results.
-/

/-- One 8-bit RGB sample (an element of a decoded `uint8` pixel array). -/
structure Pix where
  r : ℕ
  g : ℕ
  b : ℕ
deriving DecidableEq, Repr

/-- Squared Euclidean RGB distance used for the nearest-palette-entry lookup
(models Pillow's palette distance computation). -/
def pdist (p c : Pix) : ℤ :=
  ((p.r : ℤ) - c.r) ^ 2 + ((p.g : ℤ) - c.g) ^ 2 + ((p.b : ℤ) - c.b) ^ 2

/-- Scan for the nearest palette entry carrying (best index, best distance);
an entry replaces the incumbent only when strictly closer, so ties keep the
lowest palette index (Pillow keeps the first entry attaining the minimum). -/
def nearestAux (p : Pix) : List Pix → ℕ → ℕ × ℤ → ℕ × ℤ
  | [], _, s => s
  | c :: cs, i, s =>
    if pdist p c < s.2 then nearestAux p cs (i + 1) (i, pdist p c)
    else nearestAux p cs (i + 1) s

/-- Index of the palette entry nearest to `p` (lowest index on ties). -/
def nearest (pal : List Pix) (p : Pix) : ℕ :=
  match pal with
  | [] => 0
  | c :: cs => (nearestAux p cs 1 (0, pdist p c)).1

/-- Per-channel signed quantisation error carried by Floyd-Steinberg diffusion. -/
structure EPix where
  dr : ℤ
  dg : ℤ
  db : ℤ
deriving DecidableEq, Repr

/-- Clamp an error-adjusted channel back into the 8-bit range (Pillow's CLIP8). -/
def clamp255 (z : ℤ) : ℕ := if z < 0 then 0 else if 255 < z then 255 else z.toNat

/-- Apply an accumulated diffusion error to a pixel, clamping each channel. -/
def adjust (p : Pix) (e : EPix) : Pix :=
  ⟨clamp255 ((p.r : ℤ) + e.dr), clamp255 ((p.g : ℤ) + e.dg), clamp255 ((p.b : ℤ) + e.db)⟩

/-- Quantisation error of the (clamped) pixel `q` against chosen palette colour `c`. -/
def perr (q c : Pix) : EPix := ⟨(q.r : ℤ) - c.r, (q.g : ℤ) - c.g, (q.b : ℤ) - c.b⟩

/-- Scale an error by `k`/16 in C integer arithmetic (truncating division). -/
def escale (e : EPix) (k : ℤ) : EPix := ⟨e.dr * k / 16, e.dg * k / 16, e.db * k / 16⟩

/-- Componentwise sum of two carried errors. -/
def eadd (a c : EPix) : EPix := ⟨a.dr + c.dr, a.dg + c.dg, a.db + c.db⟩

/-- Add a diffused error into the pending-error slot `k` positions ahead of the
current pixel; slots past the end of the image are discarded. -/
def bump : List EPix → ℕ → EPix → List EPix
  | [], _, _ => []
  | e :: rest, 0, d => eadd e d :: rest
  | e :: rest, k + 1, d => e :: bump rest k d

/-- Floyd-Steinberg diffusion of the error `e` of the pixel at column `x` of a
row of width `w` into the pending errors of the remaining row-major pixels:
right neighbour at offset 0 (only when `x+1 < w`), down-left at `w-2` (only when
`1 ≤ x`), down at `w-1`, down-right at `w` (only when `x+1 < w`), with the
classical 7/16, 3/16, 5/16, 1/16 shares. -/
def diffuse (errs : List EPix) (w x : ℕ) (e : EPix) : List EPix :=
  let e1 := if x + 1 < w then bump errs 0 (escale e 7) else errs
  let e2 := if 1 ≤ x then bump e1 (w - 2) (escale e 3) else e1
  let e3 := bump e2 (w - 1) (escale e 5)
  if x + 1 < w then bump e3 w (escale e 1) else e3

/-- Row-major error-diffusing quantisation pass over the flattened pixels:
models Pillow's `convert` of an RGB image to mode P against a fixed palette
with Floyd-Steinberg dithering, which is what `Image.quantize(palette=...)`
performs (its `dither` parameter defaults to `Dither.FLOYDSTEINBERG`). -/
def fsQuant (pal : List Pix) (w : ℕ) : List Pix → ℕ → List EPix → List ℕ
  | [], _, _ => []
  | p :: rest, x, errs =>
    let q := adjust p (errs.headD ⟨0, 0, 0⟩)
    let idx := nearest pal q
    idx :: fsQuant pal w rest (if x + 1 = w then 0 else x + 1)
      (diffuse errs.tail w x (perr q (pal.getD idx ⟨0, 0, 0⟩)))

/-- Quantise a row-major pixel list of row width `w` against palette `pal`. -/
def quantize (pal : List Pix) (w : ℕ) (ps : List Pix) : List ℕ :=
  fsQuant pal w ps 0 (List.replicate ps.length ⟨0, 0, 0⟩)

/-- The 7-colour e-paper palette of `img_to_array` (line 67): Black, White,
Yellow, Red, duplicate Black, Blue, Green, padded to 256 entries with black. -/
def palette7 : List Pix :=
  [⟨0, 0, 0⟩, ⟨255, 255, 255⟩, ⟨255, 255, 0⟩, ⟨255, 0, 0⟩, ⟨0, 0, 0⟩,
   ⟨0, 0, 255⟩, ⟨0, 255, 0⟩] ++ List.replicate 249 ⟨0, 0, 0⟩

/-- The 6-colour palette of `img_to_epaper_4bit` (lines 222-230): White, Black,
Yellow, Red, Blue, Green, padded to 256 entries with black. -/
def palette6 : List Pix :=
  [⟨255, 255, 255⟩, ⟨0, 0, 0⟩, ⟨255, 255, 0⟩, ⟨255, 0, 0⟩, ⟨0, 0, 255⟩,
   ⟨0, 255, 0⟩] ++ List.replicate 250 ⟨0, 0, 0⟩

/-- Palette-slot to Seeed_GFX device code table of `img_to_epaper_4bit`
(line 237): White 0x0, Black 0xF, Yellow 0xB, Red 0x6, Blue 0xD, Green 0x2. -/
def index_to_code : List ℕ := [0x0, 0xF, 0xB, 0x6, 0xD, 0x2]

/-- The packing loop of `img_to_array` (lines 77-87): two palette indices per
byte, written into a bytearray preallocated with `int(width*height/2)` zero
bytes. A lone final index takes the odd-count branch `(buf[i] << 4) | 1`
(white pad); any write at an index beyond `bufLen` is a Python IndexError,
modelled as `none`. Untouched trailing cells stay zero, as in the source. -/
def packLoop : List ℕ → ℕ → Option (List ℕ)
  | [], bufLen => some (List.replicate bufLen 0)
  | [a], bufLen =>
    if bufLen = 0 then none
    else some ((a <<< 4 ||| 1) :: List.replicate (bufLen - 1) 0)
  | a :: c :: rest, bufLen =>
    if bufLen = 0 then none
    else (packLoop rest (bufLen - 1)).map ((a <<< 4 ||| c) :: ·)

/-- Pairwise nibble packing `(hi << 4) | lo` with uint8 wrap on the shifted
value, as numpy evaluates `(flat[0::2] << 4) | flat[1::2]` on an even-length
uint8 array. -/
def packPairs : List ℕ → List ℕ
  | a :: c :: rest => ((a <<< 4) % 256 ||| c) :: packPairs rest
  | _ => []

/-- The numpy packing of `img_to_epaper_4bit` (lines 243-250). Even pixel
count: all pairs, even pixel in the high nibble. Count 1: the strided slices
broadcast to an empty main assignment and the odd-count line writes
`(flat[-1] << 4) | 0x0` (white pad). Odd count at least 3: the slices
`flat[0::2]` and `flat[1::2]` have mismatched lengths ceil(n/2) and
floor(n/2), so numpy raises a shape error, modelled as `none`. -/
def packEpaper (codes : List ℕ) : Option (List ℕ) :=
  if codes.length % 2 = 0 then some (packPairs codes)
  else if codes.length = 1 then some [(codes.headD 0 <<< 4) % 256 ||| 0x0]
  else none

/-- numpy fancy indexing `index_to_code[idx_array]` (line 241): a palette index
outside the 6-entry table would be an IndexError, modelled as `none`. -/
def mapCodes : List ℕ → Option (List ℕ)
  | [] => some []
  | i :: rest =>
    match index_to_code[i]?, mapCodes rest with
    | some c, some cs => some (c :: cs)
    | _, _ => none

/-- A decoded RGB image: dimensions plus a pixel accessor (a PIL Image in
mode RGB, supplied by the external image-decoding collaborator). -/
structure PImage where
  width : ℕ
  height : ℕ
  px : ℕ → ℕ → Pix

/-- The `image.size` tuple `(width, height)`. -/
def psize (img : PImage) : ℕ × ℕ := (img.width, img.height)

/-- PIL `Transpose.ROTATE_90`: the dimensions swap; the content mapping is the
counterclockwise quarter turn. -/
def rotate90 (img : PImage) : PImage :=
  ⟨img.height, img.width, fun x y => img.px y (img.height - 1 - x)⟩

/-- PIL `image.resize((nw, nh), LANCZOS)`: raises ValueError when either new
dimension is zero (modelled `none`). The LANCZOS resampling of pixel content is
external library code; the model keeps the exact output dimensions and samples
source pixels by coordinate scaling - no claim in this development depends on
resampled pixel content. -/
def resizeModel (img : PImage) (nw nh : ℕ) : Option PImage :=
  if nw = 0 ∨ nh = 0 then none
  else some ⟨nw, nh, fun x y => img.px (x * img.width / nw) (y * img.height / nh)⟩

/-- PIL `image.crop((l, t, rr, bb))`: the result is (rr-l)x(bb-t); sources read
outside the image bounds come back black. -/
def cropModel (img : PImage) (l t rr bb : ℤ) : PImage :=
  ⟨(rr - l).toNat, (bb - t).toNat, fun x y =>
    if 0 ≤ l + x ∧ l + x < (img.width : ℤ) ∧ 0 ≤ t + y ∧ t + y < (img.height : ℤ) then
      img.px (l + x).toNat (t + y).toNat
    else ⟨0, 0, 0⟩⟩

/-- A non-negative IEEE-754 binary64 value in the normal range, as the exact
dyadic rational `m * 2^e`: non-zero values keep the 53-bit significand
normalised (`2^52 ≤ m < 2^53`), zero is `⟨0, 0⟩`. The dimensions and ratios the
codec handles never leave the normal range, so this represents the Python
float values of the resize computation exactly. -/
structure F64 where
  m : ℕ
  e : ℤ
deriving DecidableEq, Repr

/-- Fuel-driven halving count; with fuel `n` it computes floor(log2 n). -/
def bitsAux : ℕ → ℕ → ℕ
  | 0, _ => 0
  | fuel + 1, n => if n ≤ 1 then 0 else bitsAux fuel (n / 2) + 1

/-- floor(log2 n) for n ≥ 1 (the fuel `n` always suffices). -/
def flog2 (n : ℕ) : ℕ := bitsAux n n

/-- Does the exact ratio N/D reach 2^e? (integer cross-multiplication). -/
def geShift (N D : ℕ) (e : ℤ) : Bool :=
  if 0 ≤ e then decide (D * 2 ^ e.toNat ≤ N) else decide (D ≤ N * 2 ^ (-e).toNat)

/-- The binary64 value of the exact ratio N/D for D ≥ 1: round to nearest,
ties to even, at 53 significand bits - exactly what an IEEE-754 double
division of these operands produces. -/
def flRatio (N D : ℕ) : F64 :=
  if N = 0 then ⟨0, 0⟩
  else
    let e0 : ℤ := (flog2 N : ℤ) - flog2 D
    let e1 : ℤ := if geShift N D e0 then e0 else e0 - 1
    let s : ℤ := 52 - e1
    let N2 := N * 2 ^ (max s 0).toNat
    let D2 := D * 2 ^ (max (-s) 0).toNat
    let q := N2 / D2
    let r := N2 % D2
    let m0 := if D2 < 2 * r then q + 1
      else if 2 * r = D2 then (if q % 2 = 1 then q + 1 else q) else q
    if m0 = 2 ^ 53 then ⟨2 ^ 52, e1 - 51⟩ else ⟨m0, e1 - 52⟩

/-- The binary64 value nearest the exact dyadic value M * 2^e. -/
def flDyadic (M : ℕ) (e : ℤ) : F64 :=
  if 0 ≤ e then flRatio (M * 2 ^ e.toNat) 1 else flRatio M (2 ^ (-e).toNat)

/-- An IEEE-754 double product of an exactly representable integer with a
double: one correctly rounded multiplication, as Python computes `w * scale`. -/
def fmulNat (w : ℕ) (x : F64) : F64 := flDyadic (w * x.m) x.e

/-- Exact comparison of two represented doubles (IEEE comparison is exact). -/
def fle (x y : F64) : Bool :=
  decide (x.m * 2 ^ (x.e - min x.e y.e).toNat ≤ y.m * 2 ^ (y.e - min x.e y.e).toNat)

/-- Python `max` on two doubles (the tie direction is irrelevant: equal values
have identical normalised representations). -/
def fmax (x y : F64) : F64 := if fle x y then y else x

/-- Python `int()` truncation of a non-negative double. -/
def ftrunc (x : F64) : ℕ :=
  if 0 ≤ x.e then x.m * 2 ^ x.e.toNat else x.m / 2 ^ (-x.e).toNat

/-- The fill scale `max(target_width / image.width, target_height / image.height)`
(lines 39-44): two Python binary64 float divisions and an exact comparison. -/
def fillScale (w h tw th : ℕ) : F64 := fmax (flRatio tw w) (flRatio th h)

/-- `new_width = int(image.width * resize_scale)` and likewise for the height
(lines 47-48): one correctly rounded binary64 multiplication each, then
Python `int()` truncation. -/
def newDims (w h tw th : ℕ) : ℕ × ℕ :=
  (ftrunc (fmulNat w (fillScale w h tw th)), ftrunc (fmulNat h (fillScale w h tw th)))

/-- Modelled from the spec: spec section 4.1 computes the scale in exact real
arithmetic; this is that scale as an exact rational, for the comparison
definition below. -/
def fillScaleSpec (w h tw th : ℕ) : ℚ := max ((tw : ℚ) / w) ((th : ℚ) / h)

/-- Modelled from the spec: the repository truncates the resized dimensions
with `int()`, but spec section 4.1 step 3 words the resize target as
`round(buffer.width*scale) x round(buffer.height*scale)`; this definition
follows the spec's wording with rounding, for comparison with `newDims`. -/
def newDimsRound (w h tw th : ℕ) : ℕ × ℕ :=
  ((round ((w : ℚ) * fillScaleSpec w h tw th)).toNat,
   (round ((h : ℚ) * fillScaleSpec w h tw th)).toNat)

/-- The fill-resize / centre-crop stage shared by `img_to_array` (lines 36-62),
`img_to_rgb565` (lines 116-141) and `img_to_epaper_4bit` (lines 192-217):
skip when the size already matches, otherwise resize to `newDims` and, when
either new dimension exceeds the target, centre-crop with Python floor
division `//` on the margins (Int.fdiv). A zero input dimension would be a
ZeroDivisionError computing the two ratios (modelled `none`). -/
def fitImage (img : PImage) (tw th : ℕ) : Option PImage :=
  if psize img = (tw, th) then some img
  else if img.width = 0 ∨ img.height = 0 then none
  else
    let nw := (newDims img.width img.height tw th).1
    let nh := (newDims img.width img.height tw th).2
    (resizeModel img nw nh).map fun rimg =>
      if tw < nw ∨ th < nh then
        let l := Int.fdiv ((nw : ℤ) - tw) 2
        let t := Int.fdiv ((nh : ℤ) - th) 2
        cropModel rimg l t (l + tw) (t + th)
      else rimg

/-- Row-major flattening of the image samples, pixel `i` at column `i % width`
and row `i / width` (the order of `np.array(image)` and `tobytes`); channels
are reduced mod 256 because the decoded array is uint8. -/
def pixelList (img : PImage) : List Pix :=
  (List.range (img.height * img.width)).map fun i =>
    let p := img.px (i % img.width) (i / img.width)
    ⟨p.r % 256, p.g % 256, p.b % 256⟩

/-- The RGB565 value `((r & 0xF8) << 8) | ((g & 0xFC) << 3) | (b >> 3)` of
`img_to_rgb565` (line 152). -/
def rgb565_value (r g bl : ℕ) : ℕ :=
  ((r &&& 0xF8) <<< 8) ||| ((g &&& 0xFC) <<< 3) ||| (bl >>> 3)

/-- The byte swap within a 16-bit value, `((v & 0xFF) << 8) | ((v >> 8) & 0xFF)`
(line 157). -/
def swapBytes16 (v : ℕ) : ℕ := ((v &&& 0xFF) <<< 8) ||| ((v >>> 8) &&& 0xFF)

/-- uint16 `.tobytes()` in numpy native byte order on the little-endian hosts
this program runs on (lines 159-160): the stored value's low byte is emitted
before its high byte. -/
def leBytes16 (v : ℕ) : List ℕ := [v % 256, v / 256]

/-- The two output bytes `img_to_rgb565` emits for one pixel: the RGB565 value,
byte-swapped when `swap` is set, then stored in native order. -/
def rgb565_pixel_bytes (r g bl : ℕ) (swap : Bool) : List ℕ :=
  leBytes16 (if swap then swapBytes16 (rgb565_value r g bl) else rgb565_value r g bl)

/-- Modelled from the spec (section 4.3): "If swap_bytes, emit the low byte
before the high byte ...; otherwise emit high byte first" - the emission order
the spec prescribes for a 16-bit value, for comparison with the code's output. -/
def rgb565_emit_spec (v : ℕ) (swap : Bool) : List ℕ :=
  if swap then [v % 256, v / 256] else [v / 256, v % 256]

/-- Per-pixel RGB565 serialisation of a pixel list (lines 143-160). -/
def bytesOfPixels (ps : List Pix) (swap : Bool) : List ℕ :=
  match ps with
  | [] => []
  | p :: rest => rgb565_pixel_bytes p.r p.g p.b swap ++ bytesOfPixels rest swap

/-- `img_to_rgb565(image, target_width, target_height, swap_bytes)`
(lines 91-160): fill-fit to the target, then RGB565-encode every pixel. -/
def img_to_rgb565 (img : PImage) (tw th : ℕ) (swap : Bool) : Option (List ℕ) :=
  (fitImage img tw th).map fun f => bytesOfPixels (pixelList f) swap

/-- `img_to_array(image, orientation)` (lines 7-89): ROTATE_90 for landscape,
fill-fit to the hardcoded 1200x1600 target, quantise against the 7-colour
palette (`quantize(palette=pal_image)`, whose dither parameter defaults to
Floyd-Steinberg), then run the bounded packing loop with a bytearray of
`int(width*height/2)` bytes. -/
def img_to_array (img : PImage) (landscape : Bool) : Option (List ℕ) :=
  let img1 := if landscape then rotate90 img else img
  (fitImage img1 1200 1600).bind fun f =>
    packLoop (quantize palette7 f.width (pixelList f)) (f.width * f.height / 2)

/-- `img_to_epaper_4bit(image, orientation)` (lines 162-252): ROTATE_90 for
landscape, fill-fit to the hardcoded 1200x1600 target, quantise against the
6-colour palette with explicit Floyd-Steinberg dither, translate the indices
through `index_to_code`, then pack two 4-bit codes per byte. -/
def img_to_epaper_4bit (img : PImage) (landscape : Bool) : Option (List ℕ) :=
  let img1 := if landscape then rotate90 img else img
  (fitImage img1 1200 1600).bind fun f =>
    (mapCodes (quantize palette6 f.width (pixelList f))).bind packEpaper

/-- Modelled from the spec (section 8 round-trip property): the repository has
no RGB565 decoder, so the decode direction is the standard field extraction -
red bits 15-11, green bits 10-5, blue bits 4-0, each widened back to 8 bits by
a left shift. -/
def decode565 (v : ℕ) : Pix := ⟨v / 2 ^ 11 * 8, v / 2 ^ 5 % 2 ^ 6 * 4, v % 2 ^ 5 * 8⟩

/-- An 800x600 all-black decoded test image. -/
def img800 : PImage := ⟨800, 600, fun _ _ => ⟨0, 0, 0⟩⟩

/-- A 1x1 all-black decoded test image. -/
def imgOne : PImage := ⟨1, 1, fun _ _ => ⟨0, 0, 0⟩⟩

/-- A 291x388 all-black decoded test image: exactly the display's 3:4 aspect,
where binary64 truncation resizes short of the 1200x1600 target. -/
def img291 : PImage := ⟨291, 388, fun _ _ => ⟨0, 0, 0⟩⟩

/-- A 49x49 all-black decoded test image: fitting it to a 1x1 target collapses
the truncated resize width to zero, `int(49 * (1/49)) = 0` in binary64. -/
def img49 : PImage := ⟨49, 49, fun _ _ => ⟨0, 0, 0⟩⟩

/-- A 2191x2922 all-black decoded test image: binary64 truncation fits it to
1199x1600 rather than 1200x1600. -/
def img2191 : PImage := ⟨2191, 2922, fun _ _ => ⟨0, 0, 0⟩⟩

/-- The crop box `(l, t, l + tw, t + th)` slices dimensions (tw, th) exactly,
wherever it is placed. -/
theorem cropModel_dims (img : PImage) (l t : ℤ) (tw th : ℕ) :
    psize (cropModel img l t (l + tw) (t + th)) = (tw, th) := by
  simp only [psize, cropModel, Prod.mk.injEq]
  omega

/-- The bounded packing loop of `img_to_array` fails on an odd-length index
list whose byte buffer holds only the floored half: the final white-pad write
is out of range. -/
theorem packLoop_odd (k : ℕ) : ∀ codes : List ℕ, codes.length = 2 * k + 1 →
    packLoop codes k = none := by
  induction k with
  | zero =>
    intro codes hlen
    obtain _ | ⟨a, _ | ⟨c, rest⟩⟩ := codes
    · simp at hlen
    · rfl
    · simp only [List.length_cons] at hlen
      omega
  | succ n ih =>
    intro codes hlen
    obtain _ | ⟨a, _ | ⟨c, rest⟩⟩ := codes
    · simp at hlen
    · simp only [List.length_cons, List.length_nil] at hlen
      omega
    · have hrest : rest.length = 2 * n + 1 := by
        simp only [List.length_cons] at hlen
        omega
      simp [packLoop, ih rest hrest]

/-- Whatever the device-code translation returns came out of the code table. -/
theorem mapCodes_mem (idxs codes : List ℕ) (h : mapCodes idxs = some codes) :
    ∀ c ∈ codes, c ∈ index_to_code := by
  induction idxs generalizing codes with
  | nil =>
    rw [mapCodes] at h
    obtain rfl := Option.some.inj h
    simp
  | cons i rest ih =>
    rw [mapCodes] at h
    cases hg : index_to_code[i]? with
    | none => rw [hg] at h; exact absurd h (by simp)
    | some c0 =>
      cases hm : mapCodes rest with
      | none => rw [hg, hm] at h; exact absurd h (by simp)
      | some cs =>
        rw [hg, hm] at h
        obtain rfl := Option.some.inj h
        intro c hc
        rcases List.mem_cons.mp hc with h1 | h1
        · subst h1
          exact List.getElem?_mem hg
        · exact ih cs hm c h1

/-- Recover the fitted image from an evaluated dimension fact. -/
theorem fitted_of_map_psize (im : PImage) (tw th a c : ℕ)
    (h : (fitImage im tw th).map psize = some (a, c)) :
    ∃ f, fitImage im tw th = some f ∧ f.width = a ∧ f.height = c := by
  obtain ⟨f, hf, hp⟩ := Option.map_eq_some'.mp h
  exact ⟨f, hf, congrArg Prod.fst hp, congrArg Prod.snd hp⟩

/-- Row-major sample count of an image. -/
theorem pixelList_length (img : PImage) :
    (pixelList img).length = img.height * img.width := by
  simp [pixelList]

/-- The RGB565 serialiser emits two bytes per pixel. -/
theorem bytesOfPixels_length (ps : List Pix) (swap : Bool) :
    (bytesOfPixels ps swap).length = 2 * ps.length := by
  induction ps with
  | nil => rfl
  | cons p rest ih =>
    simp [bytesOfPixels, rgb565_pixel_bytes, leBytes16, ih]
    omega

/-- The quantisation pass emits exactly one palette index per input pixel. -/
theorem fsQuant_length (pal : List Pix) (w : ℕ) (ps : List Pix) (x : ℕ)
    (errs : List EPix) : (fsQuant pal w ps x errs).length = ps.length := by
  induction ps generalizing x errs with
  | nil => rfl
  | cons p rest ih => simp [fsQuant, ih]

/-- Length of the quantiser output. -/
theorem quantize_length (pal : List Pix) (w : ℕ) (ps : List Pix) :
    (quantize pal w ps).length = ps.length := fsQuant_length ..

/-- The bounded packing loop succeeds on an even-length index list whose byte
buffer holds exactly half as many cells, producing one byte per index pair. -/
theorem packLoop_even (k : ℕ) : ∀ codes : List ℕ, codes.length = 2 * k →
    ∃ out, packLoop codes k = some out ∧ out.length = k := by
  induction k with
  | zero =>
    intro codes hlen
    have : codes = [] := List.eq_nil_of_length_eq_zero (by omega)
    exact ⟨[], by rw [this]; rfl, rfl⟩
  | succ n ih =>
    intro codes hlen
    obtain _ | ⟨a, _ | ⟨c, rest⟩⟩ := codes
    · simp at hlen
    · simp at hlen
      omega
    · obtain ⟨out, hout, hlen2⟩ := ih rest (by simp only [List.length_cons] at hlen; omega)
      refine ⟨(a <<< 4 ||| c) :: out, ?_, by simp [hlen2]⟩
      simp [packLoop, hout]

/-- The best distance carried by the nearest-entry scan never increases. -/
theorem nearestAux_best_le (p : Pix) (cs : List Pix) (i : ℕ) (s : ℕ × ℤ) :
    (nearestAux p cs i s).2 ≤ s.2 := by
  induction cs generalizing i s with
  | nil => exact le_refl _
  | cons c rest ih =>
    simp only [nearestAux]
    split_ifs with hb
    · exact le_trans (ih (i + 1) (i, pdist p c)) (le_of_lt hb)
    · exact ih (i + 1) s

/-- The best distance is at most the distance of any scanned entry. -/
theorem nearestAux_le_mem (p : Pix) (cs : List Pix) (i : ℕ) (s : ℕ × ℤ)
    (c : Pix) (hc : c ∈ cs) : (nearestAux p cs i s).2 ≤ pdist p c := by
  induction cs generalizing i s with
  | nil => simp at hc
  | cons d rest ih =>
    simp only [nearestAux]
    rcases List.mem_cons.mp hc with h | h
    · subst h
      split_ifs with hb
      · exact nearestAux_best_le p rest (i + 1) (i, pdist p c)
      · exact le_trans (nearestAux_best_le p rest (i + 1) s) (not_lt.mp hb)
    · split_ifs with hb
      · exact ih (i + 1) (i, pdist p d) h
      · exact ih (i + 1) s h

/-- The best index stays below the running position bound. -/
theorem nearestAux_best_lt (p : Pix) (cs : List Pix) (i : ℕ) (s : ℕ × ℤ)
    (hs : s.1 < i) : (nearestAux p cs i s).1 < i + cs.length := by
  induction cs generalizing i s with
  | nil => simpa using hs
  | cons c rest ih =>
    simp only [nearestAux, List.length_cons]
    split_ifs with hb
    · have := ih (i + 1) (i, pdist p c) (by simp)
      omega
    · have := ih (i + 1) s (by omega)
      omega

/-- The scan processes appended list segments in order. -/
theorem nearestAux_append (p : Pix) (l1 l2 : List Pix) (i : ℕ) (s : ℕ × ℤ) :
    nearestAux p (l1 ++ l2) i s =
      nearestAux p l2 (i + l1.length) (nearestAux p l1 i s) := by
  induction l1 generalizing i s with
  | nil => simp [nearestAux]
  | cons c rest ih =>
    simp only [List.cons_append, nearestAux, List.length_cons, List.append_eq]
    have harith : i + 1 + rest.length = i + (rest.length + 1) := by omega
    split_ifs with hb
    · rw [ih (i + 1) (i, pdist p c), harith]
    · rw [ih (i + 1) s, harith]

/-- Entries at distance no better than the incumbent never change the state. -/
theorem nearestAux_replicate (p : Pix) (n i : ℕ) (s : ℕ × ℤ) (c : Pix)
    (hs : s.2 ≤ pdist p c) : nearestAux p (List.replicate n c) i s = s := by
  induction n generalizing i with
  | zero => rfl
  | succ m ih =>
    rw [List.replicate_succ]
    simp only [nearestAux]
    rw [if_neg (by omega)]
    exact ih (i + 1)

/-- Every nearest-entry lookup against the padded 6-colour palette lands in the
six real slots: the 250 padding entries duplicate black (slot 1), and a
duplicate is never strictly closer than the incumbent when it is scanned. -/
theorem nearest_palette6_lt (p : Pix) : nearest palette6 p < 6 := by
  show (nearestAux p
    ([⟨0, 0, 0⟩, ⟨255, 255, 0⟩, ⟨255, 0, 0⟩, ⟨0, 0, 255⟩, ⟨0, 255, 0⟩] ++
      List.replicate 250 ⟨0, 0, 0⟩) 1 (0, pdist p ⟨255, 255, 255⟩)).1 < 6
  rw [nearestAux_append]
  rw [nearestAux_replicate p 250 _ _ ⟨0, 0, 0⟩
    (nearestAux_le_mem p _ 1 (0, pdist p ⟨255, 255, 255⟩) ⟨0, 0, 0⟩ (by simp))]
  have h2 := nearestAux_best_lt p
    [⟨0, 0, 0⟩, ⟨255, 255, 0⟩, ⟨255, 0, 0⟩, ⟨0, 0, 255⟩, ⟨0, 255, 0⟩] 1
    (0, pdist p ⟨255, 255, 255⟩) (by norm_num)
  simpa using h2

/-- Every index the 6-colour quantiser emits is below 6. -/
theorem quantize6_mem_lt (w : ℕ) (ps : List Pix) :
    ∀ i ∈ quantize palette6 w ps, i < 6 := by
  rw [quantize]
  generalize (0 : ℕ) = x
  generalize (List.replicate ps.length (⟨0, 0, 0⟩ : EPix)) = errs
  induction ps generalizing x errs with
  | nil => simp [fsQuant]
  | cons p rest ih =>
    simp only [fsQuant, List.mem_cons]
    rintro i (h | h)
    · subst h
      exact nearest_palette6_lt _
    · exact ih _ _ _ h

/-- Translating in-range palette indices through the device-code table succeeds
and produces only table entries. -/
theorem mapCodes_lt (idxs : List ℕ) (h : ∀ i ∈ idxs, i < 6) :
    ∃ codes, mapCodes idxs = some codes ∧ codes.length = idxs.length ∧
      ∀ c ∈ codes, c ∈ index_to_code := by
  induction idxs with
  | nil => exact ⟨[], rfl, rfl, by simp⟩
  | cons i rest ih =>
    obtain ⟨codes, hc, hl, hm⟩ := ih fun j hj => h j (List.mem_cons_of_mem _ hj)
    have hi : i < index_to_code.length := by
      have := h i (List.mem_cons_self i rest)
      simp only [index_to_code, List.length_cons, List.length_nil]
      omega
    refine ⟨index_to_code[i] :: codes, ?_, by simp [hl], ?_⟩
    · rw [mapCodes, List.getElem?_eq_getElem hi, hc]
    · intro d hd
      rcases List.mem_cons.mp hd with h1 | h1
      · subst h1
        exact List.getElem_mem hi
      · exact hm d h1

/-- Splitting a packed byte back into nibbles recovers the two table codes. -/
theorem nibble_split (a c : ℕ) (ha : a ∈ index_to_code) (hc : c ∈ index_to_code) :
    ((a <<< 4) % 256 ||| c) / 16 = a ∧ ((a <<< 4) % 256 ||| c) % 16 = c := by
  simp only [index_to_code] at ha hc
  fin_cases ha <;> fin_cases hc <;> decide

/-- Both nibbles of every byte produced by the pairwise packer are table codes. -/
theorem packPairs_mem (codes : List ℕ) (h : ∀ c ∈ codes, c ∈ index_to_code) :
    ∀ byte ∈ packPairs codes,
      byte / 16 ∈ index_to_code ∧ byte % 16 ∈ index_to_code := by
  induction codes using packPairs.induct with
  | case1 a c rest ih =>
    intro byte hb
    simp only [packPairs, List.mem_cons] at hb
    rcases hb with hb | hb
    · subst hb
      have ha := h a (by simp)
      have hc := h c (by simp)
      obtain ⟨h1, h2⟩ := nibble_split a c ha hc
      rw [h1, h2]
      exact ⟨ha, hc⟩
    · exact ih (fun d hd => h d (by simp [hd])) byte hb
  | case2 codes hshape =>
    intro byte hb
    have : packPairs codes = [] := by
      cases codes with
      | nil => rfl
      | cons a rest =>
        cases rest with
        | nil => rfl
        | cons c rest2 => exact absurd rfl (hshape a c rest2)
    rw [this] at hb
    simp at hb

/-- Masking with 0xFF is reduction mod 256. -/
theorem and_255_eq_mod (v : ℕ) : v &&& 255 = v % 256 := by
  have h := Nat.and_pow_two_sub_one_eq_mod v 8
  norm_num at h
  exact h

/-- The packed RGB565 value in plain positional arithmetic: the three masked,
shifted channel fields occupy disjoint bit ranges, so the bitwise ors add. -/
theorem rgb565_value_eq (r g bl : ℕ) (hr : r < 256) (hg : g < 256)
    (hbl : bl < 256) :
    rgb565_value r g bl = 2048 * (r / 8) + 32 * (g / 4) + bl / 8 := by
  have h1 : ∀ x < 256, x &&& 0xF8 = 8 * (x / 8) := by decide
  have h2 : ∀ x < 256, x &&& 0xFC = 4 * (x / 4) := by decide
  rw [rgb565_value, Nat.shiftLeft_eq, Nat.shiftLeft_eq, Nat.shiftRight_eq_div_pow,
    h1 r hr, h2 g hg]
  rw [show 8 * (r / 8) * 2 ^ 8 = 2 ^ 11 * (r / 8) by ring,
    show 4 * (g / 4) * 2 ^ 3 = 2 ^ 5 * (g / 4) by ring]
  rw [← Nat.mul_add_lt_is_or (show 2 ^ 5 * (g / 4) < 2 ^ 11 by omega) (r / 8)]
  rw [show 2 ^ 11 * (r / 8) + 2 ^ 5 * (g / 4) = 2 ^ 5 * (64 * (r / 8) + g / 4) by ring]
  rw [← Nat.mul_add_lt_is_or (show bl / 2 ^ 3 < 2 ^ 5 by omega) (64 * (r / 8) + g / 4)]
  omega

/-- The 16-bit byte swap in positional arithmetic. -/
theorem swapBytes16_eq (v : ℕ) (hv : v < 65536) :
    swapBytes16 v = 256 * (v % 256) + v / 256 := by
  rw [swapBytes16, Nat.shiftLeft_eq, Nat.shiftRight_eq_div_pow, and_255_eq_mod,
    and_255_eq_mod]
  rw [show v / 2 ^ 8 % 256 = v / 256 by omega,
    show v % 256 * 2 ^ 8 = 2 ^ 8 * (v % 256) by ring]
  rw [← Nat.mul_add_lt_is_or (show v / 256 < 2 ^ 8 by omega) (v % 256)]

/-- The RGB565 value always fits in 16 bits. -/
theorem rgb565_value_lt (r g bl : ℕ) (hr : r < 256) (hg : g < 256)
    (hbl : bl < 256) : rgb565_value r g bl < 65536 := by
  rw [rgb565_value_eq r g bl hr hg hbl]
  omega

/-- With the swap flag the code emits the high byte of the RGB565 value first;
without it the low byte comes first (little-endian native store). -/
theorem rgb565_pixel_bytes_eq (r g bl : ℕ) (hr : r < 256) (hg : g < 256)
    (hbl : bl < 256) :
    rgb565_pixel_bytes r g bl true =
      [rgb565_value r g bl / 256, rgb565_value r g bl % 256] ∧
    rgb565_pixel_bytes r g bl false =
      [rgb565_value r g bl % 256, rgb565_value r g bl / 256] := by
  have hv := rgb565_value_lt r g bl hr hg hbl
  constructor
  · rw [rgb565_pixel_bytes, if_pos rfl, leBytes16,
      swapBytes16_eq (rgb565_value r g bl) hv]
    simp only [List.cons.injEq, and_true]
    omega
  · rfl

/-- C1: checked on the code, the packing claim fails on odd pixel counts:
the `img_to_array` loop writes its white-padded final byte past the end of the
`int(n/2)`-byte buffer (an IndexError) instead of producing ceil(n/2) bytes,
and the `img_to_epaper_4bit` packing raises a numpy shape error for odd counts
of at least 3; even counts pack `(code[2i] << 4) | code[2i+1]` as claimed, and
only the single-pixel case of the epaper packer white-pads the low nibble. -/
theorem pack_odd_count_fails :
    packLoop [0, 1, 2] (3 / 2) = none ∧
    packLoop [0, 1] (2 / 2) = some [0x01] ∧
    packLoop [2, 3, 4, 5] (4 / 2) = some [0x23, 0x45] ∧
    packEpaper [0xF, 0x0] = some [0xF0] ∧
    packEpaper [0xF] = some [0xF0] ∧
    packEpaper [0x0, 0xF, 0xB] = none := by decide

/-- C2: a pure black pixel quantises to index 0 of the 7-colour palette, but
packing that single index with the bytearray of `int(1*1/2) = 0` bytes is an
out-of-range write (IndexError), not the single byte 0x01 the claim expects;
with the one-byte (ceiling-sized) buffer the loop would produce exactly 0x01. -/
theorem single_black_pixel_pack :
    nearest palette7 ⟨0, 0, 0⟩ = 0 ∧
    packLoop [nearest palette7 ⟨0, 0, 0⟩] (1 * 1 / 2) = none ∧
    packLoop [nearest palette7 ⟨0, 0, 0⟩] 1 = some [0x01] := by decide

/-- C3 counterexample: a 291x388 input - the display's own 3:4 aspect - at the
1200x1600 target: binary64 truncation resizes to 1199x1599, neither dimension
exceeds the target, so no crop happens and the fitted buffer is 1199x1599,
not 1200x1600. -/
theorem fit_dims_float_cex :
    (fitImage img291 1200 1600).map psize = some (1199, 1599) ∧
    some ((1199 : ℕ), (1599 : ℕ)) ≠ some ((1200 : ℕ), (1600 : ℕ)) := by decide

/-- C3 amended: whenever the fit stage crops (or the input already matches the
target), the output is exactly target-sized; otherwise the output carries the
truncated binary64 resize dimensions, which never exceed the target but can
fall one pixel short (291x388 at 1200x1600 gives 1199x1599, while 800x600
still gives exactly 1200x1600); a truncated resize size of zero raises
(49x49 at a 1x1 target, since int(49 * (1/49)) = 0 in binary64). -/
theorem fit_output_dims_amended :
    (∀ (img : PImage) (tw th : ℕ),
      ((fitImage img tw th).map psize).getD (tw, th) = (tw, th) ∨
        (((fitImage img tw th).map psize).getD (tw, th) =
            newDims img.width img.height tw th ∧
          (newDims img.width img.height tw th).1 ≤ tw ∧
          (newDims img.width img.height tw th).2 ≤ th)) ∧
    (fitImage img800 1200 1600).map psize = some (1200, 1600) ∧
    (fitImage img291 1200 1600).map psize = some (1199, 1599) ∧
    (fitImage img49 1 1).isNone = true := by
  refine ⟨?_, by decide, by decide, by decide⟩
  intro img tw th
  by_cases hA : psize img = (tw, th)
  · left
    rw [fitImage, if_pos hA, Option.map_some', Option.getD_some, hA]
  · by_cases hz : img.width = 0 ∨ img.height = 0
    · left
      rw [fitImage, if_neg hA, if_pos hz]
      rfl
    · rw [fitImage, if_neg hA, if_neg hz]
      dsimp only
      by_cases hr : (newDims img.width img.height tw th).1 = 0 ∨
          (newDims img.width img.height tw th).2 = 0
      · left
        rw [resizeModel, if_pos hr]
        rfl
      · rw [resizeModel, if_neg hr]
        set nw := (newDims img.width img.height tw th).1 with hnw
        set nh := (newDims img.width img.height tw th).2 with hnh
        simp only [Option.map_some', Option.getD_some]
        by_cases hc : tw < nw ∨ th < nh
        · left
          rw [if_pos hc]
          exact cropModel_dims _ _ _ tw th
        · right
          rw [if_neg hc]
          refine ⟨rfl, ?_, ?_⟩ <;> omega

/-- C4 counterexample: for pure red with swap_bytes false the code emits the
low byte 0x00 before the high byte 0xF8, whereas the spec's emission rule for
swap_bytes false says high byte first. -/
theorem rgb565_byte_order_cex :
    rgb565_pixel_bytes 255 0 0 false = [0x00, 0xF8] ∧
    rgb565_emit_spec (rgb565_value 255 0 0) false = [0xF8, 0x00] ∧
    rgb565_pixel_bytes 255 0 0 false ≠
      rgb565_emit_spec (rgb565_value 255 0 0) false := by decide

/-- C4 amended: the 16-bit value is as claimed, but the emission order is the
reverse of the claim: with swap_bytes the code emits the high byte first, and
without it the low byte first (the swapped value is stored little-endian). -/
theorem rgb565_encode_amended (r g bl : ℕ) (swap : Bool) (hr : r < 256)
    (hg : g < 256) (hbl : bl < 256) :
    rgb565_value r g bl = 2048 * (r / 8) + 32 * (g / 4) + bl / 8 ∧
    rgb565_pixel_bytes r g bl swap =
      (if swap then [rgb565_value r g bl / 256, rgb565_value r g bl % 256]
       else [rgb565_value r g bl % 256, rgb565_value r g bl / 256]) := by
  refine ⟨rgb565_value_eq r g bl hr hg hbl, ?_⟩
  obtain ⟨h1, h2⟩ := rgb565_pixel_bytes_eq r g bl hr hg hbl
  cases swap
  · simpa using h2
  · simpa using h1

/-- Witness for the amended C4 statement at (200, 100, 50) with the swap set. -/
theorem rgb565_encode_amended_witness :
    rgb565_value 200 100 50 = 2048 * (200 / 8) + 32 * (100 / 4) + 50 / 8 ∧
    rgb565_pixel_bytes 200 100 50 true =
      (if true then [rgb565_value 200 100 50 / 256, rgb565_value 200 100 50 % 256]
       else [rgb565_value 200 100 50 % 256, rgb565_value 200 100 50 / 256]) :=
  rgb565_encode_amended 200 100 50 true (by decide) (by decide) (by decide)

/-- C5 counterexample: two 2x1 inputs that agree on pixel 1 but differ on
pixel 0 quantise pixel 1 to different 7-colour palette indices, so a pixel's
index does not depend only on that pixel's own RGB value. -/
theorem quantize7_not_pointwise_cex :
    (quantize palette7 2 [⟨160, 160, 160⟩, ⟨140, 140, 140⟩])[1]? = some 0 ∧
    (quantize palette7 2 [⟨0, 0, 0⟩, ⟨140, 140, 140⟩])[1]? = some 1 ∧
    (quantize palette7 2 [⟨160, 160, 160⟩, ⟨140, 140, 140⟩])[1]? ≠
      (quantize palette7 2 [⟨0, 0, 0⟩, ⟨140, 140, 140⟩])[1]? := by decide

/-- C5 amended: the 7-colour quantisation of `img_to_array` uses nearest-colour
lookups but with Pillow's default Floyd-Steinberg error diffusion: a grey pixel
whose own nearest palette colour is white (index 1) quantises to black
(index 0) after absorbing its left neighbour's diffused error. -/
theorem quantize7_dithered :
    nearest palette7 ⟨140, 140, 140⟩ = 1 ∧
    quantize palette7 2 [⟨160, 160, 160⟩, ⟨140, 140, 140⟩] = [1, 0] := by decide

/-- C6 counterexample: with a 0x1600 target (zero target area) the conversion
does not fail at all - it succeeds and returns an empty byte buffer. -/
theorem rgb565_zero_width_succeeds :
    img_to_rgb565 img800 0 1600 true = some [] := by decide

/-- C6 amended: the code performs no typed validation and no InvalidDimensions
error exists: a zero-area target can even succeed, returning an empty buffer
(the counterexample above); and a positive target guarantees neither success
nor the nominal byte count - fitting 49x49 to a 1x1 target collapses the
truncated resize size to zero and raises (modelled none), while a 291x388
input at the 1200x1600 target succeeds with 1199*1599*2 bytes instead of
1200*1600*2. -/
theorem rgb565_no_validation_amended :
    img_to_rgb565 img49 1 1 true = none ∧
    (∃ out, img_to_rgb565 img291 1200 1600 true = some out ∧
      out.length = 1199 * 1599 * 2) := by
  refine ⟨by decide, ?_⟩
  obtain ⟨f, hf, h2, h3⟩ := fitted_of_map_psize img291 1200 1600 1199 1599 (by decide)
  refine ⟨_, by rw [img_to_rgb565, hf, Option.map_some'], ?_⟩
  rw [bytesOfPixels_length, pixelList_length, h2, h3]

/-- C7 counterexample: a 5x3 source fitted to an 8x4 target: the scale is 8/5,
the code truncates 3 * (8/5) = 4.8 to 4, while the spec's rounding rule gives
round(4.8) = 5. -/
theorem newDims_truncates_cex :
    newDims 5 3 8 4 = (8, 4) ∧ newDimsRound 5 3 8 4 = (8, 5) ∧
    newDims 5 3 8 4 ≠ newDimsRound 5 3 8 4 := by
  have h1 : newDims 5 3 8 4 = (8, 4) := by decide
  have h2 : newDimsRound 5 3 8 4 = (8, 5) := by
    have hmax : fillScaleSpec 5 3 8 4 = 8 / 5 := by
      rw [fillScaleSpec, max_eq_left (by norm_num)]
      norm_num
    unfold newDimsRound
    rw [hmax]
    norm_num [round_eq]
    decide
  refine ⟨h1, h2, ?_⟩
  rw [h1, h2]
  decide

/-- C7 amended: the resize step truncates `w*scale` and `h*scale` with `int()`
rather than rounding; on the concrete 800x600 source and 1200x1600 target the
two agree: the image is resized to exactly 2133x1600, the centred horizontal
crop margin is (2133-1200)//2 = 466, and the fitted buffer is 1200x1600. -/
theorem fill_resize_concrete :
    newDims 800 600 1200 1600 = (2133, 1600) ∧
    Int.fdiv ((2133 : ℤ) - 1200) 2 = 466 ∧
    (fitImage img800 1200 1600).map psize = some (1200, 1600) := by
  refine ⟨by decide, by decide, by decide⟩

/-- C8: RGB565 round trip without swap: decoding the encoded 16-bit value
recovers red within 7, green within 3 and blue within 7 of the original
channel values (truncation never overshoots). -/
theorem rgb565_roundtrip (r g bl : ℕ) (hr : r < 256) (hg : g < 256)
    (hbl : bl < 256) :
    (decode565 (rgb565_value r g bl)).r ≤ r ∧
      r ≤ (decode565 (rgb565_value r g bl)).r + 7 ∧
    (decode565 (rgb565_value r g bl)).g ≤ g ∧
      g ≤ (decode565 (rgb565_value r g bl)).g + 3 ∧
    (decode565 (rgb565_value r g bl)).b ≤ bl ∧
      bl ≤ (decode565 (rgb565_value r g bl)).b + 7 := by
  rw [rgb565_value_eq r g bl hr hg hbl]
  simp only [decode565]
  omega

/-- Witness for C8 at (0xC8, 0x64, 0x32). -/
theorem rgb565_roundtrip_witness :
    (decode565 (rgb565_value 200 100 50)).r ≤ 200 ∧
      200 ≤ (decode565 (rgb565_value 200 100 50)).r + 7 ∧
    (decode565 (rgb565_value 200 100 50)).g ≤ 100 ∧
      100 ≤ (decode565 (rgb565_value 200 100 50)).g + 3 ∧
    (decode565 (rgb565_value 200 100 50)).b ≤ 50 ∧
      50 ≤ (decode565 (rgb565_value 200 100 50)).b + 7 :=
  rgb565_roundtrip 200 100 50 (by decide) (by decide) (by decide)

/-- Whatever a successful run of the epaper pipeline tail packed, both nibbles
of every byte are device codes: every translated code comes out of the table,
and packing (pairs or the single-pixel white pad) preserves nibble membership,
whatever image the fit stage produced. -/
theorem epaper_out_mem (img1 : PImage) (out : List ℕ)
    (h : ((fitImage img1 1200 1600).bind fun f =>
      (mapCodes (quantize palette6 f.width (pixelList f))).bind packEpaper) =
        some out) :
    ∀ byte ∈ out, byte / 16 ∈ index_to_code ∧ byte % 16 ∈ index_to_code := by
  cases hf : fitImage img1 1200 1600 with
  | none =>
    rw [hf] at h
    exact absurd h (by simp)
  | some f =>
    rw [hf] at h
    replace h : (mapCodes (quantize palette6 f.width (pixelList f))).bind
        packEpaper = some out := h
    cases hm : mapCodes (quantize palette6 f.width (pixelList f)) with
    | none =>
      rw [hm] at h
      exact absurd h (by simp)
    | some codes =>
      rw [hm] at h
      replace h : packEpaper codes = some out := h
      have hmem := mapCodes_mem _ codes hm
      rw [packEpaper] at h
      split_ifs at h with he h1
      · obtain rfl := Option.some.inj h
        exact packPairs_mem codes hmem
      · obtain rfl := Option.some.inj h
        obtain ⟨c, rfl⟩ := List.length_eq_one.mp h1
        intro byte hb
        have hc : c ∈ index_to_code := hmem c (by simp)
        simp only [index_to_code] at hc
        simp only [List.headD_cons, List.mem_singleton] at hb
        subst hb
        fin_cases hc <;> exact ⟨by decide, by decide⟩

/-- C9: both nibbles - high and low 4 bits - of every byte `img_to_epaper_4bit`
produces lie in the fixed device-code table 0x0, 0xF, 0xB, 0x6, 0xD, 0x2,
because every packed value is drawn from `index_to_code`; stated over whatever
output a run produces (runs that raise produce none). -/
theorem epaper_nibbles_in_code_table (img : PImage) (landscape : Bool) :
    ((img_to_epaper_4bit img landscape).getD []).all
      (fun byte => index_to_code.contains (byte / 16) &&
        index_to_code.contains (byte % 16)) = true := by
  cases ho : img_to_epaper_4bit img landscape with
  | none => rfl
  | some out =>
    rw [Option.getD_some, List.all_eq_true]
    intro byte hb
    obtain ⟨h1, h2⟩ := epaper_out_mem (if landscape then rotate90 img else img)
      out ho byte hb
    simp [List.contains, h1, h2]

/-- C10 counterexample: a 291x388 input fits - in binary64 - to 1199x1599, an
odd pixel count, so the packing loop's white-pad write runs past the end of
the `int(1199*1599/2)`-byte buffer and `img_to_array` raises an IndexError
instead of returning 960000 bytes. -/
theorem img_to_array_not_960000_cex :
    img_to_array img291 false = none := by
  obtain ⟨f, hf, h2, h3⟩ := fitted_of_map_psize img291 1200 1600 1199 1599 (by decide)
  show (fitImage img291 1200 1600).bind
    (fun f => packLoop (quantize palette7 f.width (pixelList f))
      (f.width * f.height / 2)) = none
  rw [hf]
  show packLoop (quantize palette7 f.width (pixelList f))
    (f.width * f.height / 2) = none
  have hlen : (quantize palette7 f.width (pixelList f)).length = 2 * 958600 + 1 := by
    rw [quantize_length, pixelList_length, h2, h3]
  rw [show f.width * f.height / 2 = 958600 by rw [h2, h3]]
  exact packLoop_odd 958600 _ hlen

/-- C10 amended: the paletted conversion hardcodes the 1200x1600 target, and
when the binary64 fit yields exactly 1200x1600 - as for an 800x600 input -
`img_to_array` returns 1200*1600/2 = 960000 bytes; but float truncation can
fit short of the target: a 2191x2922 input fits to 1199x1600 and yields
959200 bytes, and a 291x388 input fits to 1199x1599, whose odd pixel count
makes the packing loop raise. -/
theorem img_to_array_output_size_amended :
    (∃ out, img_to_array img800 false = some out ∧ out.length = 960000) ∧
    (∃ out, img_to_array img2191 false = some out ∧ out.length = 959200) := by
  constructor
  · obtain ⟨f, hf, h2, h3⟩ := fitted_of_map_psize img800 1200 1600 1200 1600 (by decide)
    have hlen : (quantize palette7 f.width (pixelList f)).length = 2 * 960000 := by
      rw [quantize_length, pixelList_length, h2, h3]
    obtain ⟨out, ho, hol⟩ := packLoop_even 960000 _ hlen
    refine ⟨out, ?_, hol⟩
    show (fitImage img800 1200 1600).bind
      (fun f => packLoop (quantize palette7 f.width (pixelList f))
        (f.width * f.height / 2)) = some out
    rw [hf]
    show packLoop (quantize palette7 f.width (pixelList f))
      (f.width * f.height / 2) = some out
    rw [show f.width * f.height / 2 = 960000 by rw [h2, h3]]
    exact ho
  · obtain ⟨f, hf, h2, h3⟩ := fitted_of_map_psize img2191 1200 1600 1199 1600 (by decide)
    have hlen : (quantize palette7 f.width (pixelList f)).length = 2 * 959200 := by
      rw [quantize_length, pixelList_length, h2, h3]
    obtain ⟨out, ho, hol⟩ := packLoop_even 959200 _ hlen
    refine ⟨out, ?_, hol⟩
    show (fitImage img2191 1200 1600).bind
      (fun f => packLoop (quantize palette7 f.width (pixelList f))
        (f.width * f.height / 2)) = some out
    rw [hf]
    show packLoop (quantize palette7 f.width (pixelList f))
      (f.width * f.height / 2) = some out
    rw [show f.width * f.height / 2 = 959200 by rw [h2, h3]]
    exact ho
